import Mathlib

/-!
Shallow embedding of `patsy/user_util.py` (functions `balanced` and
`demo_data`) and proofs about it.

Conventions of the embedding:
* Python keyword-argument dictionaries are modelled as association lists
  `List (String × Nat)`; Python guarantees the keys are distinct, which
  appears as a `Nodup` hypothesis where it matters.
* Python's `zip(*rows)` (used as an "unzip"/transpose) is modelled by
  `pyZip`, which reproduces its truncate-at-shortest semantics.
* `np.random.RandomState(0)`'s sequence of standard-normal draws is
  modelled as an abstract stream `stream : Nat → α`: seeding with the fixed
  constant 0 means every call reads the same stream, and `r.normal(size=n)`
  consumes the next `n` entries of it.  The floating-point values
  themselves are opaque to the model; everything proved below holds for
  every stream.
-/

namespace Charlton

/-- Lexicographic comparison of character lists, the order Python's `sorted`
uses on strings. -/
def charsLe : List Char → List Char → Bool
  | [], _ => true
  | _ :: _, [] => false
  | c₁ :: t₁, c₂ :: t₂ => if c₁ = c₂ then charsLe t₁ t₂ else decide (c₁ < c₂)

/-- Lexicographic comparison of strings (Python's string `<=`). -/
def strLe (s₁ s₂ : String) : Bool := charsLe s₁.data s₂.data

/-- Python's `sorted` on a list of strings. -/
def pySorted (l : List String) : List String :=
  l.insertionSort (fun a b => strLe a b = true)

/-- Labels of one factor: `["%s%s" % (name, i) for i in xrange(1, level_count + 1)]`. -/
def levelLabels (name : String) (count : Nat) : List String :=
  (List.range count).map (fun i => name ++ Nat.repr (i + 1))

/-- Embedding of `itertools.product(*lists)`: Cartesian product of the lists,
with the last list varying fastest. -/
def itertools_product {α : Type} : List (List α) → List (List α)
  | [] => [[]]
  | l :: ls => l.flatMap (fun x => (itertools_product ls).map (fun t => x :: t))

/-- Python's `list * n`: the list concatenated with itself `n` times. -/
def tile {α : Type} (l : List α) (n : Nat) : List α :=
  (List.replicate n l).flatten

/-- Fuel-driven worker for `pyZip`. -/
def pyZipAux {α : Type} : Nat → List (List α) → List (List α)
  | 0, _ => []
  | n + 1, rows =>
    if rows.isEmpty || rows.any List.isEmpty then []
    else rows.filterMap List.head? :: pyZipAux n (rows.map List.tail)

/-- Embedding of Python's `zip(*rows)`: transpose truncated at the shortest
row; `zip()` of no iterables is `[]`.  The fuel (length of the first row)
bounds the number of produced tuples. -/
def pyZip {α : Type} (rows : List (List α)) : List (List α) :=
  pyZipAux (rows.headD []).length rows

/-- The factor names of a keyword dictionary, sorted (`names = sorted(kwargs)`). -/
def sortedNames (kwargs : List (String × Nat)) : List String :=
  pySorted (kwargs.map Prod.fst)

/-- The per-factor label lists built by `balanced`'s loop, in sorted-name
order (`levels.append([...])` driven by `kwargs[name]`). -/
def sortedLevels (kwargs : List (String × Nat)) : List (List String) :=
  (sortedNames kwargs).map (fun name => levelLabels name ((kwargs.lookup name).getD 0))

/-- Embedding of the body of `balanced` after `repeat` has been popped from
the keyword arguments: sort the factor names, build the per-factor label
lists, enumerate the Cartesian product, unzip it into columns, and tile each
column `rep` times. -/
def balanced (kwargs : List (String × Nat)) (rep : Nat) :
    List (String × List String) :=
  let names := sortedNames kwargs
  let values := pyZip (itertools_product (sortedLevels kwargs))
  (names.zip values).map (fun p => (p.1, tile p.2 rep))

/-- Embedding of a full call `balanced(**kwargs)`: `repeat` is popped from
the keyword dictionary (defaulting to 1) and the rest are the factors. -/
def balancedCall (kwargs : List (String × Nat)) : List (String × List String) :=
  balanced (kwargs.filter (fun p => p.1 ≠ "repeat")) ((kwargs.lookup "repeat").getD 1)

/-- Product of the lengths of a list of lists: the number of rows produced
by `itertools_product`. -/
def prodLen {α : Type} (ls : List (List α)) : Nat :=
  (ls.map List.length).prod

/-- Modelled from the spec: "standard odometer/lexicographic product order,
iterating with the last listed factor varying fastest".  Row `i` of the
product picks, from each list, the entry selected by the mixed-radix digits
of `i`, with the last list supplying the fastest-moving digit. -/
def odometerRow {α : Type} (d : α) : List (List α) → Nat → List α
  | [], _ => []
  | l :: ls, i => l.getD (i / prodLen ls) d :: odometerRow d ls (i % prodLen ls)

/-- The tuple of entries of the table at row `i`, one per column, in the
table's column order. -/
def rowTuple (table : List (String × List String)) (i : Nat) : List String :=
  table.map (fun p => p.2.getD i "")

/-! ### Basic facts about the building blocks -/

theorem levelLabels_length (name : String) (c : Nat) :
    (levelLabels name c).length = c := by
  simp [levelLabels]

theorem flatMap_length_const {α β : Type} (l : List α) (f : α → List β) (m : Nat)
    (h : ∀ x ∈ l, (f x).length = m) : (l.flatMap f).length = l.length * m := by
  induction l with
  | nil => simp
  | cons x t ih =>
    have hx := h x (by simp)
    have ht := ih (fun y hy => h y (by simp [hy]))
    simp [List.flatMap_cons, hx, ht, Nat.succ_mul, Nat.add_comm]

theorem itertools_product_length {α : Type} (ls : List (List α)) :
    (itertools_product ls).length = prodLen ls := by
  induction ls with
  | nil => simp [itertools_product, prodLen]
  | cons l ls ih =>
    have h : ∀ x ∈ l, ((itertools_product ls).map (fun t => x :: t)).length =
        prodLen ls := by
      intro x _
      simp [ih]
    rw [itertools_product, flatMap_length_const _ _ _ h]
    simp [prodLen]

theorem mem_itertools_product_length {α : Type} :
    ∀ {ls : List (List α)} {r : List α}, r ∈ itertools_product ls →
      r.length = ls.length := by
  intro ls
  induction ls with
  | nil => intro r hr; simp [itertools_product] at hr; simp [hr]
  | cons l ls ih =>
    intro r hr
    simp only [itertools_product, List.mem_flatMap, List.mem_map] at hr
    obtain ⟨x, -, t, ht, rfl⟩ := hr
    simp [ih ht]

theorem flatMap_getD {α β : Type} (dα : α) (dβ : β) :
    ∀ (l : List α) (f : α → List β) (m i : Nat), (∀ x ∈ l, (f x).length = m) →
      i < l.length * m →
      (l.flatMap f).getD i dβ = (f (l.getD (i / m) dα)).getD (i % m) dβ := by
  intro l
  induction l with
  | nil => intro f m i _ hi; simp at hi
  | cons x t ih =>
    intro f m i h hi
    have hm : 0 < m := by
      rcases Nat.eq_zero_or_pos m with hm | hm
      · subst hm; simp at hi
      · exact hm
    have hx : (f x).length = m := h x (by simp)
    rw [List.flatMap_cons]
    rcases Nat.lt_or_ge i m with hlt | hge
    · rw [List.getD_append _ _ _ _ (by omega), Nat.div_eq_of_lt hlt,
        Nat.mod_eq_of_lt hlt]
      simp
    · rw [List.getD_append_right _ _ _ _ (by omega), hx]
      have ht : ∀ y ∈ t, (f y).length = m := fun y hy => h y (by simp [hy])
      have hi' : i - m < t.length * m := by
        simp [List.length_cons, Nat.succ_mul] at hi
        omega
      rw [ih f m (i - m) ht hi']
      rw [Nat.div_eq_sub_div hm hge, Nat.mod_eq_sub_mod hge]
      simp [Nat.add_comm]

theorem getD_map_of_lt {α β : Type} (f : α → β) (l : List α) (dα : α) (dβ : β)
    {n : Nat} (h : n < l.length) : (l.map f).getD n dβ = f (l.getD n dα) := by
  rw [List.getD_eq_getElem _ _ (by simpa using h), List.getD_eq_getElem _ _ h]
  simp

/-- Row `i` of the Cartesian product is the odometer decode of `i`: the last
list varies fastest. -/
theorem itertools_product_getD {α : Type} (d : α) :
    ∀ (ls : List (List α)) (i : Nat), i < prodLen ls →
      (itertools_product ls).getD i [] = odometerRow d ls i := by
  intro ls
  induction ls with
  | nil =>
    intro i hi
    simp [prodLen] at hi
    simp [itertools_product, odometerRow, hi]
  | cons l ls ih =>
    intro i hi
    have hlen : ∀ x ∈ l, ((itertools_product ls).map (fun t => x :: t)).length =
        prodLen ls := by
      intro x _; simp [itertools_product_length]
    have hi' : i < l.length * prodLen ls := by
      simpa [prodLen] using hi
    have hm : 0 < prodLen ls := by
      rcases Nat.eq_zero_or_pos (prodLen ls) with h0 | h0
      · rw [h0] at hi'; simp at hi'
      · exact h0
    rw [itertools_product, flatMap_getD d _ _ _ (prodLen ls) i hlen hi']
    have hmod : i % prodLen ls < (itertools_product ls).length := by
      rw [itertools_product_length]; exact Nat.mod_lt _ hm
    rw [getD_map_of_lt _ _ [] _ hmod, ih (i % prodLen ls) (Nat.mod_lt _ hm)]
    rfl

/-! ### `pyZip` on rectangular input -/

theorem filterMap_head_eq {α : Type} (d : α) :
    ∀ (rows : List (List α)), (∀ r ∈ rows, r ≠ []) →
      rows.filterMap List.head? = rows.map (fun r => r.getD 0 d) := by
  intro rows
  induction rows with
  | nil => intro; rfl
  | cons r t ih =>
    intro h
    obtain ⟨x, r', rfl⟩ := List.exists_cons_of_ne_nil (h r (by simp))
    simp [List.filterMap_cons, ih (fun y hy => h y (by simp [hy]))]

theorem getD_tail {α : Type} (r : List α) (j : Nat) (d : α) :
    r.tail.getD j d = r.getD (j + 1) d := by
  cases r <;> simp [List.getD]

theorem pyZipAux_rect {α : Type} (d : α) :
    ∀ (n : Nat) (rows : List (List α)), rows ≠ [] →
      (∀ r ∈ rows, r.length = n) →
      pyZipAux n rows =
        (List.range n).map (fun j => rows.map (fun r => r.getD j d)) := by
  intro n
  induction n with
  | zero => intro rows _ _; simp [pyZipAux]
  | succ n ih =>
    intro rows hne hlen
    have hno : ∀ r ∈ rows, r ≠ [] := by
      intro r hr h
      have := hlen r hr
      rw [h] at this
      simp at this
    have h1 : rows.isEmpty = false := by
      cases rows
      · exact absurd rfl hne
      · rfl
    have h2 : rows.any List.isEmpty = false := by
      rw [List.any_eq_false]
      intro r hr
      simpa using hno r hr
    have hcond : (rows.isEmpty || rows.any List.isEmpty) = false := by
      rw [h1, h2]; rfl
    rw [pyZipAux, hcond]
    simp only [Bool.false_eq_true, if_false]
    have htne : rows.map List.tail ≠ [] := by
      simpa using hne
    have htlen : ∀ r ∈ rows.map List.tail, r.length = n := by
      intro r hr
      obtain ⟨s, hs, rfl⟩ := List.mem_map.mp hr
      have := hlen s hs
      simp [this]
    rw [ih (rows.map List.tail) htne htlen, filterMap_head_eq d rows hno,
      List.range_succ_eq_map, List.map_cons]
    congr 1
    rw [List.map_map]
    apply List.map_congr_left
    intro j _
    simp only [Function.comp_apply, List.map_map]
    apply List.map_congr_left
    intro r _
    simp [Function.comp, getD_tail]

theorem pyZip_rect {α : Type} (d : α) {n : Nat} {rows : List (List α)}
    (hne : rows ≠ []) (hlen : ∀ r ∈ rows, r.length = n) :
    pyZip rows = (List.range n).map (fun j => rows.map (fun r => r.getD j d)) := by
  obtain ⟨r₀, t, rfl⟩ := List.exists_cons_of_ne_nil hne
  have : (List.headD (r₀ :: t) []).length = n := hlen r₀ (by simp)
  rw [pyZip, this]
  exact pyZipAux_rect d n _ hne hlen

/-! ### `tile` -/

theorem tile_length {α : Type} (l : List α) (n : Nat) :
    (tile l n).length = n * l.length := by
  induction n with
  | zero => simp [tile]
  | succ n ih =>
    simp only [tile, List.replicate_succ, List.flatten_cons, List.length_append] at *
    rw [ih, Nat.succ_mul, Nat.add_comm]

theorem tile_getD {α : Type} (l : List α) (d : α) :
    ∀ (n i : Nat), i < n * l.length →
      (tile l n).getD i d = l.getD (i % l.length) d := by
  intro n
  induction n with
  | zero => intro i hi; simp at hi
  | succ n ih =>
    intro i hi
    have hL : 0 < l.length := by
      rcases Nat.eq_zero_or_pos l.length with h0 | h0
      · rw [h0] at hi; simp at hi
      · exact h0
    show ((l :: List.replicate n l).flatten).getD i d = _
    rw [List.flatten_cons]
    rcases Nat.lt_or_ge i l.length with hlt | hge
    · rw [List.getD_append _ _ _ _ hlt, Nat.mod_eq_of_lt hlt]
    · rw [List.getD_append_right _ _ _ _ hge]
      have hi' : i - l.length < n * l.length := by
        rw [Nat.succ_mul] at hi; omega
      have := ih (i - l.length) hi'
      rw [Nat.mod_eq_sub_mod hge]
      exact this

/-! ### Keyword dictionaries: lookup and sorting -/

theorem lookup_eq_snd : ∀ {kwargs : List (String × Nat)},
    (kwargs.map Prod.fst).Nodup → ∀ p ∈ kwargs, kwargs.lookup p.1 = some p.2 := by
  intro kwargs
  induction kwargs with
  | nil => intro _ p hp; simp at hp
  | cons q t ih =>
    intro hnd p hp
    simp only [List.map_cons, List.nodup_cons] at hnd
    rcases List.mem_cons.mp hp with rfl | hpt
    · simp [List.lookup]
    · have hne : p.1 ≠ q.1 := by
        intro h
        exact hnd.1 (h ▸ List.mem_map_of_mem Prod.fst hpt)
      have : (p.1 == q.1) = false := beq_eq_false_iff_ne.mpr hne
      simp [List.lookup, this, ih hnd.2 p hpt]

theorem sortedNames_perm (kwargs : List (String × Nat)) :
    (sortedNames kwargs).Perm (kwargs.map Prod.fst) :=
  List.perm_insertionSort _ _

theorem sortedNames_length (kwargs : List (String × Nat)) :
    (sortedNames kwargs).length = kwargs.length := by
  rw [(sortedNames_perm kwargs).length_eq, List.length_map]

theorem sortedLevels_length (kwargs : List (String × Nat)) :
    (sortedLevels kwargs).length = kwargs.length := by
  rw [sortedLevels, List.length_map, sortedNames_length]

theorem prodLen_sortedLevels {kwargs : List (String × Nat)}
    (hnodup : (kwargs.map Prod.fst).Nodup) :
    prodLen (sortedLevels kwargs) = (kwargs.map Prod.snd).prod := by
  unfold prodLen sortedLevels
  rw [List.map_map]
  have h1 : (sortedNames kwargs).map
        (List.length ∘ fun name => levelLabels name ((kwargs.lookup name).getD 0)) =
      (sortedNames kwargs).map (fun name => (kwargs.lookup name).getD 0) := by
    apply List.map_congr_left
    intro nm _
    simp [Function.comp, levelLabels_length]
  rw [h1, ((sortedNames_perm kwargs).map
      (fun name => (kwargs.lookup name).getD 0)).prod_eq, List.map_map]
  congr 1
  apply List.map_congr_left
  intro p hp
  simp [Function.comp, lookup_eq_snd hnodup p hp]

theorem sortedLevels_pos {kwargs : List (String × Nat)}
    (hnodup : (kwargs.map Prod.fst).Nodup) (hpos : ∀ p ∈ kwargs, 0 < p.2) :
    ∀ l ∈ sortedLevels kwargs, 0 < l.length := by
  intro l hl
  obtain ⟨nm, hnm, rfl⟩ := List.mem_map.mp hl
  have hmem : nm ∈ kwargs.map Prod.fst := (sortedNames_perm kwargs).subset hnm
  obtain ⟨p, hp, rfl⟩ := List.mem_map.mp hmem
  rw [levelLabels_length, lookup_eq_snd hnodup p hp]
  exact hpos p hp

theorem rows_ne_nil {kwargs : List (String × Nat)}
    (hnodup : (kwargs.map Prod.fst).Nodup) (hpos : ∀ p ∈ kwargs, 0 < p.2) :
    itertools_product (sortedLevels kwargs) ≠ [] := by
  have hlen : 0 < (itertools_product (sortedLevels kwargs)).length := by
    rw [itertools_product_length]
    apply List.prod_pos
    intro a ha
    obtain ⟨l, hl, rfl⟩ := List.mem_map.mp ha
    exact sortedLevels_pos hnodup hpos l hl
  exact List.ne_nil_of_length_pos hlen

theorem rows_width {kwargs : List (String × Nat)} :
    ∀ r ∈ itertools_product (sortedLevels kwargs), r.length = kwargs.length := by
  intro r hr
  rw [mem_itertools_product_length hr, sortedLevels_length]

theorem rows_length {kwargs : List (String × Nat)}
    (hnodup : (kwargs.map Prod.fst).Nodup) :
    (itertools_product (sortedLevels kwargs)).length = (kwargs.map Prod.snd).prod := by
  rw [itertools_product_length, prodLen_sortedLevels hnodup]

/-! ### Claim C2 -/

theorem balanced_col_len {kwargs : List (String × Nat)} {rep : Nat}
    (hnodup : (kwargs.map Prod.fst).Nodup) (hpos : ∀ p ∈ kwargs, 0 < p.2) :
    ∀ p ∈ balanced kwargs rep, p.2.length = rep * (kwargs.map Prod.snd).prod := by
  intro p hp
  simp only [balanced] at hp
  rw [pyZip_rect "" (rows_ne_nil hnodup hpos) rows_width] at hp
  obtain ⟨q, hq, rfl⟩ := List.mem_map.mp hp
  have hq2 : q.2 ∈ (List.range kwargs.length).map
      (fun j => (itertools_product (sortedLevels kwargs)).map (fun r => r.getD j "")) :=
    (List.of_mem_zip hq).2
  obtain ⟨j, _, hj⟩ := List.mem_map.mp hq2
  rw [tile_length, ← hj, List.length_map, rows_length hnodup]

/-- C2: for every mapping of factor names to positive level counts and every
positive repeat, every column of the table returned by `balanced` has the
same length, equal to `repeat` times the product of the level counts. -/
theorem balanced_column_length (kwargs : List (String × Nat)) (rep : Nat)
    (hnodup : (kwargs.map Prod.fst).Nodup) (hpos : ∀ p ∈ kwargs, 0 < p.2)
    (_hrep : 0 < rep) :
    ∀ p ∈ balanced kwargs rep, p.2.length = rep * (kwargs.map Prod.snd).prod :=
  balanced_col_len hnodup hpos

/-- Witness for C2 at `balanced(a=2, b=3, repeat=2)`, column `"a"`. -/
theorem balanced_column_length_witness :
    (("a", ["a1", "a1", "a1", "a2", "a2", "a2",
            "a1", "a1", "a1", "a2", "a2", "a2"]) : String × List String).2.length =
      2 * (([("a", 2), ("b", 3)] : List (String × Nat)).map Prod.snd).prod :=
  balanced_column_length [("a", 2), ("b", 3)] 2 (by decide) (by decide) (by decide)
    _ (by decide)

/-! ### Injectivity of `Nat.repr` (distinct level indices give distinct labels) -/

/-- Decimal digit characters of `n`, most significant first: the closed form
of what `Nat.toDigitsCore` computes at base 10. -/
def decDigits (n : Nat) : List Char :=
  if h : n < 10 then [Nat.digitChar n]
  else decDigits (n / 10) ++ [Nat.digitChar (n % 10)]
decreasing_by exact Nat.div_lt_self (by omega) (by omega)

theorem toDigitsCore_eq :
    ∀ (fuel n : Nat) (ds : List Char), n < 10 ^ (fuel + 1) →
      Nat.toDigitsCore 10 (fuel + 1) n ds = decDigits n ++ ds := by
  intro fuel
  induction fuel with
  | zero =>
    intro n ds h
    have h10 : n < 10 := by simpa using h
    have hu : Nat.toDigitsCore 10 1 n ds =
        if n / 10 = 0 then Nat.digitChar (n % 10) :: ds
        else Nat.toDigitsCore 10 0 (n / 10) (Nat.digitChar (n % 10) :: ds) := rfl
    rw [hu, if_pos (Nat.div_eq_of_lt h10), decDigits, dif_pos h10,
      Nat.mod_eq_of_lt h10]
    rfl
  | succ fuel ih =>
    intro n ds h
    have hu : Nat.toDigitsCore 10 (fuel + 2) n ds =
        if n / 10 = 0 then Nat.digitChar (n % 10) :: ds
        else Nat.toDigitsCore 10 (fuel + 1) (n / 10) (Nat.digitChar (n % 10) :: ds) :=
      rfl
    rw [hu]
    by_cases h0 : n / 10 = 0
    · have h10 : n < 10 := by omega
      rw [if_pos h0, decDigits, dif_pos h10, Nat.mod_eq_of_lt h10]
      rfl
    · have h10 : ¬ n < 10 := by omega
      have hdiv : n / 10 < 10 ^ (fuel + 1) := by
        rw [Nat.div_lt_iff_lt_mul (by omega)]
        calc n < 10 ^ (fuel + 2) := h
          _ = 10 ^ (fuel + 1) * 10 := by ring
      rw [if_neg h0, decDigits, dif_neg h10, ih (n / 10) _ hdiv, List.append_assoc]
      rfl

theorem digitChar_toNat {n : Nat} (h : n < 10) : (Nat.digitChar n).toNat = 48 + n := by
  interval_cases n <;> rfl

theorem decode_decDigits :
    ∀ (n a : Nat),
      (decDigits n).foldl (fun a c => a * 10 + (c.toNat - 48)) a =
        a * 10 ^ (decDigits n).length + n := by
  intro n
  induction n using Nat.strong_induction_on with
  | _ n ih =>
    intro a
    by_cases h : n < 10
    · rw [decDigits, dif_pos h]
      simp [digitChar_toNat h]
    · rw [decDigits, dif_neg h, List.foldl_append,
        ih (n / 10) (Nat.div_lt_self (by omega) (by omega)) a,
        List.length_append]
      simp only [List.foldl_cons, List.foldl_nil, List.length_singleton]
      rw [digitChar_toNat (Nat.mod_lt _ (by omega)), pow_succ]
      have hmod : n / 10 * 10 + n % 10 = n := by omega
      generalize (10 : Nat) ^ (decDigits (n / 10)).length = P
      rw [Nat.add_sub_cancel_left, Nat.add_mul, Nat.mul_assoc, Nat.add_assoc, hmod]

theorem decDigits_inj {m n : Nat} (h : decDigits m = decDigits n) : m = n := by
  have hm := decode_decDigits m 0
  have hn := decode_decDigits n 0
  rw [h] at hm
  omega

theorem repr_inj {m n : Nat} (h : Nat.repr m = Nat.repr n) : m = n := by
  have hdata := congrArg String.data h
  have h' : Nat.toDigitsCore 10 (m + 1) m [] = Nat.toDigitsCore 10 (n + 1) n [] := by
    simpa [Nat.repr, Nat.toDigits, List.asString] using hdata
  have hlt : ∀ k : Nat, k < 10 ^ (k + 1) := by
    intro k
    calc k < 10 ^ k := Nat.lt_pow_self (by omega) k
      _ ≤ 10 ^ (k + 1) := Nat.pow_le_pow_right (by omega) (by omega)
  rw [toDigitsCore_eq m m [] (hlt m), toDigitsCore_eq n n [] (hlt n),
    List.append_nil, List.append_nil] at h'
  exact decDigits_inj h'

/-! ### Nodup facts: labels and product rows -/

theorem levelLabels_nodup (name : String) (c : Nat) : (levelLabels name c).Nodup := by
  unfold levelLabels
  have hinj : Function.Injective (fun i : Nat => name ++ Nat.repr (i + 1)) := by
    intro i j hij
    have hdata := congrArg String.data hij
    simp only [String.data_append] at hdata
    have : (Nat.repr (i + 1)).data = (Nat.repr (j + 1)).data :=
      List.append_cancel_left hdata
    have : Nat.repr (i + 1) = Nat.repr (j + 1) := String.ext this
    have := repr_inj this
    omega
  exact (List.nodup_range c).map hinj

theorem itertools_product_nodup {α : Type} :
    ∀ {ls : List (List α)}, (∀ l ∈ ls, l.Nodup) →
      (itertools_product ls).Nodup := by
  intro ls
  induction ls with
  | nil => intro _; simp [itertools_product]
  | cons l ls ih =>
    intro h
    rw [itertools_product, List.nodup_flatMap]
    constructor
    · intro x _
      exact (ih (fun l' hl' => h l' (by simp [hl']))).map
        (fun t t' ht => by simpa using ht)
    · have hl : l.Nodup := h l (by simp)
      apply hl.imp
      intro a b hab
      rw [Function.onFun_apply, List.disjoint_left]
      intro t hta htb
      obtain ⟨t₁, _, rfl⟩ := List.mem_map.mp hta
      obtain ⟨t₂, _, ht⟩ := List.mem_map.mp htb
      simp only [List.cons.injEq] at ht
      exact hab ht.1.symm

theorem sortedLevels_rows_nodup (kwargs : List (String × Nat)) :
    (itertools_product (sortedLevels kwargs)).Nodup := by
  apply itertools_product_nodup
  intro l hl
  obtain ⟨nm, _, rfl⟩ := List.mem_map.mp hl
  exact levelLabels_nodup _ _

/-! ### Row tuples of `balanced` -/

theorem map_snd_zip_map {α β γ : Type} (g : β → γ) :
    ∀ (l₁ : List α) (l₂ : List β), l₁.length = l₂.length →
      (l₁.zip l₂).map (fun p => g p.2) = l₂.map g := by
  intro l₁
  induction l₁ with
  | nil =>
    intro l₂ h
    cases l₂
    · rfl
    · simp at h
  | cons x t ih =>
    intro l₂ h
    cases l₂ with
    | nil => simp at h
    | cons y s => simp [ih s (by simpa using h)]

theorem range_map_getD {α : Type} (r : List α) (d : α) :
    (List.range r.length).map (fun j => r.getD j d) = r := by
  apply List.ext_getElem (by simp)
  intro j h1 h2
  rw [List.getElem_map, List.getElem_range, List.getD_eq_getElem _ _ h2]

/-- Any valid row `k` of `balanced` is row `k % balanced_size` of the
Cartesian product: the table is the product block tiled `rep` times. -/
theorem rowTuple_balanced_mod {kwargs : List (String × Nat)} {rep k : Nat}
    (hnodup : (kwargs.map Prod.fst).Nodup) (hpos : ∀ p ∈ kwargs, 0 < p.2)
    (hk : k < rep * (kwargs.map Prod.snd).prod) :
    rowTuple (balanced kwargs rep) k =
      (itertools_product (sortedLevels kwargs)).getD
        (k % (kwargs.map Prod.snd).prod) [] := by
  have hbs := rows_length hnodup
  have hbs0 : 0 < (kwargs.map Prod.snd).prod := by
    rcases Nat.eq_zero_or_pos (kwargs.map Prod.snd).prod with h0 | h0
    · rw [h0] at hk; simp at hk
    · exact h0
  have hi' : k % (kwargs.map Prod.snd).prod <
      (itertools_product (sortedLevels kwargs)).length := by
    rw [hbs]; exact Nat.mod_lt _ hbs0
  have hmem : (itertools_product (sortedLevels kwargs)).getD
      (k % (kwargs.map Prod.snd).prod) [] ∈ itertools_product (sortedLevels kwargs) := by
    rw [List.getD_eq_getElem _ _ hi']
    exact List.getElem_mem _
  have hrlen := rows_width _ hmem
  unfold rowTuple
  simp only [balanced]
  rw [pyZip_rect "" (rows_ne_nil hnodup hpos) rows_width, List.map_map]
  have hcomp : ((fun (p : String × List String) => p.2.getD k "") ∘
      (fun (p : String × List String) => (p.1, tile p.2 rep))) =
      (fun (p : String × List String) => (fun v => (tile v rep).getD k "") p.2) := rfl
  rw [hcomp, map_snd_zip_map (fun v => (tile v rep).getD k "") _ _
    (by simp [sortedNames_length]), List.map_map]
  have hstep : ∀ j ∈ List.range kwargs.length,
      ((fun v => (tile v rep).getD k "") ∘
        (fun j => (itertools_product (sortedLevels kwargs)).map (fun r => r.getD j ""))) j =
      ((itertools_product (sortedLevels kwargs)).getD
        (k % (kwargs.map Prod.snd).prod) []).getD j "" := by
    intro j _
    simp only [Function.comp_apply]
    rw [tile_getD _ _ rep k (by rw [List.length_map, hbs]; exact hk),
      List.length_map, hbs]
    exact getD_map_of_lt _ _ [] _ hi'
  rw [List.map_congr_left hstep, ← hrlen]
  exact range_map_getD _ _

/-- Special case: in the first block, row `i` is row `i` of the product. -/
theorem rowTuple_balanced {kwargs : List (String × Nat)} {rep i : Nat}
    (hnodup : (kwargs.map Prod.fst).Nodup) (hpos : ∀ p ∈ kwargs, 0 < p.2)
    (hrep : 0 < rep) (hi : i < (kwargs.map Prod.snd).prod) :
    rowTuple (balanced kwargs rep) i =
      (itertools_product (sortedLevels kwargs)).getD i [] := by
  have hk : i < rep * (kwargs.map Prod.snd).prod :=
    Nat.lt_of_lt_of_le hi (Nat.le_mul_of_pos_left _ hrep)
  rw [rowTuple_balanced_mod hnodup hpos hk, Nat.mod_eq_of_lt hi]

/-- The column names of the table are exactly the sorted factor names. -/
theorem balanced_keys (kwargs : List (String × Nat)) (rep : Nat)
    (hnodup : (kwargs.map Prod.fst).Nodup) (hpos : ∀ p ∈ kwargs, 0 < p.2) :
    (balanced kwargs rep).map Prod.fst = sortedNames kwargs := by
  simp only [balanced]
  rw [pyZip_rect "" (rows_ne_nil hnodup hpos) rows_width, List.map_map]
  have hcomp : ((Prod.fst : String × List String → String) ∘
      (fun (p : String × List String) => (p.1, tile p.2 rep))) =
      (Prod.fst : String × List String → String) := rfl
  rw [hcomp]
  exact List.map_fst_zip _ _ (le_of_eq (by simp [sortedNames_length]))

/-! ### The sort relation is total and transitive -/

theorem charsLe_total : ∀ a b : List Char, charsLe a b = true ∨ charsLe b a = true := by
  intro a
  induction a with
  | nil => intro b; left; rfl
  | cons x xs ih =>
    intro b
    cases b with
    | nil => right; rfl
    | cons y ys =>
      simp only [charsLe]
      by_cases hxy : x = y
      · subst hxy
        rw [if_pos rfl, if_pos rfl]
        exact ih ys
      · rw [if_neg hxy, if_neg (Ne.symm hxy)]
        rcases lt_or_gt_of_ne hxy with h | h
        · left; simpa using h
        · right; simpa using h

theorem charsLe_trans : ∀ a b c : List Char,
    charsLe a b = true → charsLe b c = true → charsLe a c = true := by
  intro a
  induction a with
  | nil => intro b c _ _; rfl
  | cons x xs ih =>
    intro b c hab hbc
    cases b with
    | nil => simp [charsLe] at hab
    | cons y ys =>
      cases c with
      | nil => simp [charsLe] at hbc
      | cons z zs =>
        simp only [charsLe] at hab hbc ⊢
        by_cases hxy : x = y
        · subst hxy
          rw [if_pos rfl] at hab
          by_cases hyz : x = z
          · subst hyz
            rw [if_pos rfl] at hbc ⊢
            exact ih _ _ hab hbc
          · rw [if_neg hyz] at hbc ⊢
            exact hbc
        · rw [if_neg hxy] at hab
          have hlt1 : x < y := by simpa using hab
          by_cases hyz : y = z
          · subst hyz
            rw [if_neg hxy]
            exact hab
          · rw [if_neg hyz] at hbc
            have hlt2 : y < z := by simpa using hbc
            have hlt : x < z := lt_trans hlt1 hlt2
            rw [if_neg (ne_of_lt hlt)]
            simpa using hlt

instance : IsTotal String (fun a b => strLe a b = true) :=
  ⟨fun a b => charsLe_total a.data b.data⟩

instance : IsTrans String (fun a b => strLe a b = true) :=
  ⟨fun a b c => charsLe_trans a.data b.data c.data⟩

theorem pySorted_sorted (l : List String) :
    (pySorted l).Sorted (fun a b => strLe a b = true) :=
  List.sorted_insertionSort _ l

/-! ### Claims C1, C3, C9 -/

/-- C1: `balanced` sorts the factor names lexicographically, labels each
factor's levels by concatenating the name with the 1-based indices, and
enumerates the Cartesian product with the last (lexicographically greatest)
factor varying fastest (odometer order); in particular `balanced(a=2, b=3)`
returns exactly the stated table. -/
theorem balanced_sorted_odometer :
    (∀ (kwargs : List (String × Nat)) (rep : Nat),
        (kwargs.map Prod.fst).Nodup → (∀ p ∈ kwargs, 0 < p.2) →
        (balanced kwargs rep).map Prod.fst = sortedNames kwargs ∧
        ((balanced kwargs rep).map Prod.fst).Sorted (fun a b => strLe a b = true)) ∧
    (∀ (kwargs : List (String × Nat)) (rep i : Nat),
        (kwargs.map Prod.fst).Nodup → (∀ p ∈ kwargs, 0 < p.2) → 0 < rep →
        i < (kwargs.map Prod.snd).prod →
        rowTuple (balanced kwargs rep) i = odometerRow "" (sortedLevels kwargs) i) ∧
    balancedCall [("a", 2), ("b", 3)] =
      [("a", ["a1", "a1", "a1", "a2", "a2", "a2"]),
       ("b", ["b1", "b2", "b3", "b1", "b2", "b3"])] := by
  refine ⟨?_, ?_, by decide⟩
  · intro kwargs rep hnodup hpos
    refine ⟨balanced_keys kwargs rep hnodup hpos, ?_⟩
    rw [balanced_keys kwargs rep hnodup hpos]
    exact pySorted_sorted _
  · intro kwargs rep i hnodup hpos hrep hi
    rw [rowTuple_balanced hnodup hpos hrep hi]
    apply itertools_product_getD
    rw [prodLen_sortedLevels hnodup]
    exact hi

/-- Witness for C1: row 1 of `balanced(a=2, b=3)` is the odometer decode of
1, i.e. `["a1", "b2"]`. -/
theorem balanced_sorted_odometer_witness :
    rowTuple (balanced [("a", 2), ("b", 3)] 1) 1 =
      odometerRow "" (sortedLevels [("a", 2), ("b", 3)]) 1 :=
  balanced_sorted_odometer.2.1 [("a", 2), ("b", 3)] 1 1 (by decide) (by decide)
    (by decide) (by decide)

/-- C3: among rows `0..balanced_size-1` of a `balanced` table every row
tuple is unique (each combination appears exactly once per replicate), and
the tuple at row `i + balanced_size` equals the tuple at row `i`
(replication is tiling, not interleaving), as in
`balanced(a=2, b=2, repeat=2)`. -/
theorem balanced_unique_tiling :
    (∀ (kwargs : List (String × Nat)) (rep i j : Nat),
        (kwargs.map Prod.fst).Nodup → (∀ p ∈ kwargs, 0 < p.2) → 0 < rep →
        i < (kwargs.map Prod.snd).prod → j < (kwargs.map Prod.snd).prod →
        rowTuple (balanced kwargs rep) i = rowTuple (balanced kwargs rep) j →
        i = j) ∧
    (∀ (kwargs : List (String × Nat)) (rep i : Nat),
        (kwargs.map Prod.fst).Nodup → (∀ p ∈ kwargs, 0 < p.2) →
        i + (kwargs.map Prod.snd).prod < rep * (kwargs.map Prod.snd).prod →
        rowTuple (balanced kwargs rep) (i + (kwargs.map Prod.snd).prod) =
          rowTuple (balanced kwargs rep) i) ∧
    balancedCall [("a", 2), ("b", 2), ("repeat", 2)] =
      [("a", ["a1", "a1", "a2", "a2", "a1", "a1", "a2", "a2"]),
       ("b", ["b1", "b2", "b1", "b2", "b1", "b2", "b1", "b2"])] := by
  refine ⟨?_, ?_, by decide⟩
  · intro kwargs rep i j hnodup hpos hrep hi hj heq
    rw [rowTuple_balanced hnodup hpos hrep hi,
      rowTuple_balanced hnodup hpos hrep hj] at heq
    have hbs := rows_length hnodup
    have hi' : i < (itertools_product (sortedLevels kwargs)).length := by
      rw [hbs]; exact hi
    have hj' : j < (itertools_product (sortedLevels kwargs)).length := by
      rw [hbs]; exact hj
    rw [List.getD_eq_getElem _ _ hi', List.getD_eq_getElem _ _ hj'] at heq
    exact ((sortedLevels_rows_nodup kwargs).getElem_inj_iff).mp heq
  · intro kwargs rep i hnodup hpos hlt
    have h2 : i < rep * (kwargs.map Prod.snd).prod := by omega
    rw [rowTuple_balanced_mod hnodup hpos hlt,
      rowTuple_balanced_mod hnodup hpos h2, Nat.add_mod_right]

/-- Witness for C3: in `balanced(a=2, b=2, repeat=2)` the tuple at row
`1 + 4` equals the tuple at row 1. -/
theorem balanced_unique_tiling_witness :
    rowTuple (balanced [("a", 2), ("b", 2)] 2)
        (1 + (([("a", 2), ("b", 2)] : List (String × Nat)).map Prod.snd).prod) =
      rowTuple (balanced [("a", 2), ("b", 2)] 2) 1 :=
  balanced_unique_tiling.2.1 [("a", 2), ("b", 2)] 2 1 (by decide) (by decide)
    (by decide)

/-- C9: a keyword argument literally named `repeat` is consumed as the
replication count, not treated as a factor: the returned table has no
`repeat` column, and the remaining factors are replicated `k` times. -/
theorem balancedCall_repeat_consumed (kwargs : List (String × Nat)) (k : Nat)
    (hnodup : (kwargs.map Prod.fst).Nodup) (hmem : ("repeat", k) ∈ kwargs) :
    (∀ p ∈ balancedCall kwargs, p.1 ≠ "repeat") ∧
    balancedCall kwargs = balanced (kwargs.filter (fun p => p.1 ≠ "repeat")) k := by
  have hlook : kwargs.lookup "repeat" = some k :=
    lookup_eq_snd hnodup ("repeat", k) hmem
  constructor
  · intro p hp
    unfold balancedCall at hp
    simp only [balanced] at hp
    obtain ⟨q, hq, rfl⟩ := List.mem_map.mp hp
    have h1 : q.1 ∈ sortedNames (kwargs.filter fun p => p.1 ≠ "repeat") :=
      (List.of_mem_zip hq).1
    have h2 : q.1 ∈ (kwargs.filter fun p => p.1 ≠ "repeat").map Prod.fst :=
      (sortedNames_perm _).subset h1
    obtain ⟨r, hr, hr1⟩ := List.mem_map.mp h2
    have hkeep := (List.mem_filter.mp hr).2
    rw [← hr1]
    simpa using hkeep
  · unfold balancedCall
    rw [hlook]
    rfl

/-- Witness for C9 at `balanced(a=2, repeat=3)`. -/
theorem balancedCall_repeat_consumed_witness :
    balancedCall [("a", 2), ("repeat", 3)] =
      balanced (([("a", 2), ("repeat", 3)] : List (String × Nat)).filter
        (fun p => p.1 ≠ "repeat")) 3 :=
  (balancedCall_repeat_consumed [("a", 2), ("repeat", 3)] 3 (by decide) (by decide)).2

/-! ### The embedding of `demo_data` -/

/-- Error values `demo_data` can raise.  `invalidName` is the
`PatsyError("bad name %r" % (name,))` (the spec's InvalidNameError);
`unexpectedOption` is the `TypeError("unexpected keyword arguments %r")`
carrying the unrecognized option names (the spec's UnexpectedOptionError);
`emptyNameIndexError` is the `IndexError` Python raises when `name[0]` is
evaluated on an empty string. -/
inductive DemoError where
  | invalidName : String → DemoError
  | unexpectedOption : List String → DemoError
  | emptyNameIndexError : DemoError
deriving DecidableEq

/-- One column of a demo dataset: categorical labels (a Python list of
strings) or numeric samples (a numpy array). -/
inductive Column (α : Type) where
  | cat : List String → Column α
  | num : List α → Column α
deriving DecidableEq

/-- Length of a column. -/
def Column.len {α : Type} : Column α → Nat
  | .cat l => l.length
  | .num l => l.length

/-- The characters `"abcdefghijklmn"` that make a name categorical. -/
def catChars : List Char := "abcdefghijklmn".data

/-- The characters `"pqrstuvwxyz"` that make a name numerical. -/
def numChars : List Char := "pqrstuvwxyz".data

/-- Classification of a single name by its first character: `true` means
categorical, `false` numerical.  The empty string fails with the
`IndexError` of `name[0]`; other unrecognized first characters raise
`PatsyError("bad name %r")`. -/
def classifyName (name : String) : Except DemoError Bool :=
  match name.data with
  | [] => .error .emptyNameIndexError
  | c :: _ =>
    if c ∈ catChars then .ok true
    else if c ∈ numChars then .ok false
    else .error (.invalidName name)

/-- The classification loop of `demo_data`, in argument order: the first
failing name determines the error; otherwise the names are split into the
categorical and numerical groups (duplicates collapse later, as they do in
Python's dict/set). -/
def classifyNames : List String → Except DemoError (List String × List String)
  | [] => .ok ([], [])
  | name :: rest =>
    match classifyName name with
    | .error e => .error e
    | .ok true =>
      match classifyNames rest with
      | .error e => .error e
      | .ok (cs, ns) => .ok (name :: cs, ns)
    | .ok false =>
      match classifyNames rest with
      | .error e => .error e
      | .ok (cs, ns) => .ok (cs, name :: ns)

/-- `np.prod(categorical.values())`: the product of `nlevels` over the
distinct categorical names (1 when there are none). -/
def balancedDesignSize (nlevels : Nat) (cats : List String) : Nat :=
  (cats.dedup.map (fun _ => nlevels)).prod

/-- `repeat * balanced_design_size` with
`repeat = int(np.ceil(min_rows * 1.0 / balanced_design_size))`. -/
def numRows (nlevels min_rows : Nat) (cats : List String) : Nat :=
  ((min_rows + balancedDesignSize nlevels cats - 1) / balancedDesignSize nlevels cats) *
    balancedDesignSize nlevels cats

/-- Embedding of `demo_data(*names, nlevels=2, min_rows=5)`.  `extra` holds
the names of any keyword arguments left over after `nlevels` and `min_rows`
are popped; `stream` is `np.random.RandomState(0)`'s standard-normal sample
sequence (see the header comment): the `i`-th sorted numeric name receives
the next `num_rows` samples, i.e. indices `i*num_rows..(i+1)*num_rows-1`. -/
def demo_data {α : Type} (stream : Nat → α) (names : List String)
    (nlevels min_rows : Nat) (extra : List String) :
    Except DemoError (List (String × Column α)) :=
  if extra.isEmpty then
    match classifyNames names with
    | .error e => .error e
    | .ok (cats, nums) =>
      let num_rows := numRows nlevels min_rows cats
      let rep := (min_rows + balancedDesignSize nlevels cats - 1) /
        balancedDesignSize nlevels cats
      let table := balanced (cats.dedup.map (fun n => (n, nlevels))) rep
      .ok (table.map (fun p => (p.1, Column.cat p.2)) ++
        (pySorted nums.dedup).enum.map (fun q =>
          (q.2, Column.num ((List.range num_rows).map
            (fun t => stream (q.1 * num_rows + t))))))
  else .error (.unexpectedOption extra)

/-- The numeric columns of a result, with their values. -/
def numericPart {α : Type} (r : List (String × Column α)) : List (String × List α) :=
  r.filterMap (fun p =>
    match p.2 with
    | .num l => some (p.1, l)
    | .cat _ => none)

/-! ### Structure of successful `demo_data` calls -/

theorem demo_data_ok_eq {α : Type} (stream : Nat → α) (names : List String)
    (nlevels min_rows : Nat) {cats nums : List String}
    (hcl : classifyNames names = .ok (cats, nums)) :
    demo_data stream names nlevels min_rows [] =
      .ok ((balanced (cats.dedup.map (fun n => (n, nlevels)))
          ((min_rows + balancedDesignSize nlevels cats - 1) /
            balancedDesignSize nlevels cats)).map (fun p => (p.1, Column.cat p.2)) ++
        (pySorted nums.dedup).enum.map (fun q =>
          (q.2, Column.num ((List.range (numRows nlevels min_rows cats)).map
            (fun t => stream (q.1 * numRows nlevels min_rows cats + t)))))) := by
  unfold demo_data
  rw [hcl]
  rfl

theorem numRows_spec (nlevels min_rows : Nat) (cats : List String)
    (hnl : 0 < nlevels) :
    balancedDesignSize nlevels cats ∣ numRows nlevels min_rows cats ∧
    min_rows ≤ numRows nlevels min_rows cats ∧
    (∀ m, balancedDesignSize nlevels cats ∣ m → min_rows ≤ m →
      numRows nlevels min_rows cats ≤ m) := by
  have hbs : 0 < balancedDesignSize nlevels cats := by
    unfold balancedDesignSize
    apply List.prod_pos
    intro a ha
    obtain ⟨_, _, rfl⟩ := List.mem_map.mp ha
    exact hnl
  set bs := balancedDesignSize nlevels cats with hbsdef
  refine ⟨⟨(min_rows + bs - 1) / bs, Nat.mul_comm _ _⟩, ?_, ?_⟩
  · have h1 : bs * ((min_rows + bs - 1) / bs) + (min_rows + bs - 1) % bs =
        min_rows + bs - 1 := Nat.div_add_mod _ _
    have h2 : (min_rows + bs - 1) % bs < bs := Nat.mod_lt _ hbs
    show min_rows ≤ (min_rows + bs - 1) / bs * bs
    rw [Nat.mul_comm]
    generalize hM : bs * ((min_rows + bs - 1) / bs) = M at h1 ⊢
    omega
  · intro m hdvd hm
    obtain ⟨t, rfl⟩ := hdvd
    have hq : (min_rows + bs - 1) / bs ≤ t := by
      rw [Nat.div_le_iff_le_mul_add_pred hbs]
      have hM : min_rows ≤ bs * t := hm
      generalize bs * t = M at hM ⊢
      omega
    show (min_rows + bs - 1) / bs * bs ≤ bs * t
    calc (min_rows + bs - 1) / bs * bs ≤ t * bs := Nat.mul_le_mul_right _ hq
      _ = bs * t := Nat.mul_comm _ _

theorem filterMap_num_cols {α : Type} (l : List (Nat × String))
    (f : Nat × String → String × List α) :
    (l.map (fun q => ((f q).1, Column.num (f q).2))).filterMap
      (fun p : String × Column α =>
        match p.2 with
        | .num v => some (p.1, v)
        | .cat _ => none) = l.map f := by
  induction l with
  | nil => rfl
  | cons q t ih => simp [ih]

theorem filterMap_cat_cols {α : Type} (l : List (String × List String)) :
    (l.map (fun p => (p.1, Column.cat p.2))).filterMap
      (fun p : String × Column α =>
        match p.2 with
        | .num v => some (p.1, v)
        | .cat _ => none) = [] := by
  induction l with
  | nil => rfl
  | cons q t ih => simpa using ih

/-- The numeric columns of a successful call are exactly the consecutive
slices of the seed-0 stream, one per sorted distinct numeric name, each of
length `num_rows`. -/
theorem demo_data_numericPart {α : Type} (stream : Nat → α) (names : List String)
    (nlevels min_rows : Nat) {cats nums : List String}
    {result : List (String × Column α)}
    (hcl : classifyNames names = .ok (cats, nums))
    (hok : demo_data stream names nlevels min_rows [] = .ok result) :
    numericPart result = (pySorted nums.dedup).enum.map (fun q =>
      (q.2, (List.range (numRows nlevels min_rows cats)).map
        (fun t => stream (q.1 * numRows nlevels min_rows cats + t)))) := by
  rw [demo_data_ok_eq stream names nlevels min_rows hcl] at hok
  injection hok with h
  subst h
  unfold numericPart
  rw [List.filterMap_append, filterMap_cat_cols,
    filterMap_num_cols _ (fun q => (q.2, (List.range (numRows nlevels min_rows cats)).map
      (fun t => stream (q.1 * numRows nlevels min_rows cats + t))))]
  rfl

/-! ### Claim C4 -/

/-- C4: every column of a successful `demo_data` call has the same length,
the smallest multiple of `balanced_size` (1 when there are no categorical
names) that is at least `min_rows`; in particular numeric columns have at
least `min_rows` entries, and `demo_data("x","y")` with defaults yields two
columns of length exactly 5. -/
theorem demo_data_row_count :
    (∀ (α : Type) (stream : Nat → α) (names : List String)
        (nlevels min_rows : Nat) (cats nums : List String)
        (result : List (String × Column α)),
        0 < nlevels →
        classifyNames names = .ok (cats, nums) →
        demo_data stream names nlevels min_rows [] = .ok result →
        (∀ p ∈ result, p.2.len = numRows nlevels min_rows cats) ∧
        balancedDesignSize nlevels cats ∣ numRows nlevels min_rows cats ∧
        min_rows ≤ numRows nlevels min_rows cats ∧
        (∀ m, balancedDesignSize nlevels cats ∣ m → min_rows ≤ m →
          numRows nlevels min_rows cats ≤ m)) ∧
    (∀ stream : Nat → Int, ∃ r, demo_data stream ["x", "y"] 2 5 [] = .ok r ∧
        r.length = 2 ∧ ∀ p ∈ r, p.2.len = 5) := by
  constructor
  · intro α stream names nlevels min_rows cats nums result hnl hcl hok
    rw [demo_data_ok_eq stream names nlevels min_rows hcl] at hok
    injection hok with h
    subst h
    refine ⟨?_, numRows_spec nlevels min_rows cats hnl⟩
    intro p hp
    rcases List.mem_append.mp hp with hp | hp
    · obtain ⟨q, hq, rfl⟩ := List.mem_map.mp hp
      have hnodup' : ((cats.dedup.map (fun n => (n, nlevels))).map Prod.fst).Nodup := by
        rw [List.map_map]
        have hid : (Prod.fst ∘ fun n : String => (n, nlevels)) = id := rfl
        rw [hid, List.map_id]
        exact cats.nodup_dedup
      have hpos' : ∀ p ∈ cats.dedup.map (fun n => (n, nlevels)), 0 < p.2 := by
        intro p hp'
        obtain ⟨_, _, rfl⟩ := List.mem_map.mp hp'
        exact hnl
      have hlen := balanced_col_len hnodup' hpos' q hq
      show q.2.length = numRows nlevels min_rows cats
      rw [hlen]
      unfold numRows balancedDesignSize
      rw [List.map_map]
      rfl
    · obtain ⟨q, hq, rfl⟩ := List.mem_map.mp hp
      show ((List.range (numRows nlevels min_rows cats)).map _).length = _
      rw [List.length_map, List.length_range]
  · intro stream
    refine ⟨_, @demo_data_ok_eq Int stream ["x", "y"] 2 5 [] ["x", "y"] rfl, by rfl, ?_⟩
    intro p hp
    rcases List.mem_append.mp hp with hp | hp
    · simp [balanced, sortedNames, sortedLevels, pySorted, pyZip, pyZipAux,
        itertools_product] at hp
    · obtain ⟨q, hq, rfl⟩ := List.mem_map.mp hp
      show ((List.range (numRows 2 5 [])).map _).length = 5
      rw [List.length_map, List.length_range]
      rfl

/-- Witness for C4: with one categorical name (`nlevels = 2`) and default
`min_rows = 5`, the row count is at least 5. -/
theorem demo_data_row_count_witness : 5 ≤ numRows 2 5 ["a"] :=
  (demo_data_row_count.1 Int (fun n => (n : Int)) ["a", "x"] 2 5 ["a"] ["x"] _
    (by decide) rfl rfl).2.2.1

/-! ### Claim C5 -/

/-- C5: a name whose first character is in `"abcdefghijklmn"` is classified
categorical (entering the categorical group, to which `demo_data` assigns
`nlevels` levels), one whose first character is in `"pqrstuvwxyz"` is
numeric, and any other first character raises the domain error naming the
offending name; in particular `demo_data("a","b","__123")` raises it. -/
theorem demo_data_classification :
    (∀ (name : String) (c : Char) (rest : List Char), name.data = c :: rest →
        (c ∈ catChars → classifyName name = .ok true) ∧
        (c ∈ numChars → classifyName name = .ok false) ∧
        (c ∉ catChars → c ∉ numChars →
          classifyName name = .error (.invalidName name))) ∧
    (∀ (names cats nums : List String) (nm : String),
        classifyNames names = .ok (cats, nums) → nm ∈ names →
        (classifyName nm = .ok true → nm ∈ cats) ∧
        (classifyName nm = .ok false → nm ∈ nums)) ∧
    (∀ (stream : Nat → Int) (nlevels min_rows : Nat),
        demo_data stream ["a", "b", "__123"] nlevels min_rows [] =
          .error (.invalidName "__123")) := by
  refine ⟨?_, ?_, ?_⟩
  · intro name c rest hdata
    have hstep : classifyName name =
        if c ∈ catChars then (.ok true : Except DemoError Bool)
        else if c ∈ numChars then .ok false
        else .error (.invalidName name) := by
      unfold classifyName
      rw [hdata]
    refine ⟨fun hc => ?_, fun hc => ?_, fun hc hn => ?_⟩
    · rw [hstep, if_pos hc]
    · have hc' : c ∉ catChars := by
        intro hmem
        have hmem' : c ∈ (['a', 'b', 'c', 'd', 'e', 'f', 'g', 'h', 'i', 'j', 'k',
            'l', 'm', 'n'] : List Char) := hmem
        have hnum' : c ∈ (['p', 'q', 'r', 's', 't', 'u', 'v', 'w', 'x', 'y',
            'z'] : List Char) := hc
        fin_cases hmem' <;> simp_all
      rw [hstep, if_neg hc', if_pos hc]
    · rw [hstep, if_neg hc, if_neg hn]
  · intro names
    induction names with
    | nil => intro cats nums nm h hmem; simp at hmem
    | cons nm' rest ih =>
      intro cats nums nm h hmem
      simp only [classifyNames] at h
      cases hc : classifyName nm' with
      | error e => rw [hc] at h; simp at h
      | ok b =>
        rw [hc] at h
        cases b
        · cases hr : classifyNames rest with
          | error e => rw [hr] at h; simp at h
          | ok pr =>
            obtain ⟨cs, ns⟩ := pr
            rw [hr] at h
            simp only [Except.ok.injEq, Prod.mk.injEq] at h
            obtain ⟨hcats, hnums⟩ := h
            subst hcats
            subst hnums
            rcases List.mem_cons.mp hmem with rfl | hmem'
            · exact ⟨fun h' => by rw [hc] at h'; simp at h',
                fun _ => List.mem_cons_self _ _⟩
            · exact ⟨fun h' => (ih _ _ nm hr hmem').1 h',
                fun h' => List.mem_cons_of_mem _ ((ih _ _ nm hr hmem').2 h')⟩
        · cases hr : classifyNames rest with
          | error e => rw [hr] at h; simp at h
          | ok pr =>
            obtain ⟨cs, ns⟩ := pr
            rw [hr] at h
            simp only [Except.ok.injEq, Prod.mk.injEq] at h
            obtain ⟨hcats, hnums⟩ := h
            subst hcats
            subst hnums
            rcases List.mem_cons.mp hmem with rfl | hmem'
            · exact ⟨fun _ => List.mem_cons_self _ _,
                fun h' => by rw [hc] at h'; simp at h'⟩
            · exact ⟨fun h' => List.mem_cons_of_mem _ ((ih _ _ nm hr hmem').1 h'),
                fun h' => (ih _ _ nm hr hmem').2 h'⟩
  · intro stream nlevels min_rows
    rfl

/-- Witness for C5: `"q7"` starts with `'q'` and is classified numeric. -/
theorem demo_data_classification_witness : classifyName "q7" = .ok false :=
  (demo_data_classification.1 "q7" 'q' ['7'] rfl).2.1 (by decide)

/-! ### Claim C6 -/

/-- C6: `demo_data` is deterministic: two calls with identical names,
`nlevels` and `min_rows` return identical results, because the numeric
columns are exactly consecutive `num_rows`-long slices of the fixed
seed-0 normal stream, taken over the numeric names in lexicographically
sorted order. -/
theorem demo_data_determinism :
    (∀ (α : Type) (stream : Nat → α) (names : List String)
        (nlevels min_rows : Nat) (r₁ r₂ : List (String × Column α)),
        demo_data stream names nlevels min_rows [] = .ok r₁ →
        demo_data stream names nlevels min_rows [] = .ok r₂ → r₁ = r₂) ∧
    (∀ (α : Type) (stream : Nat → α) (names : List String)
        (nlevels min_rows : Nat) (cats nums : List String)
        (result : List (String × Column α)),
        classifyNames names = .ok (cats, nums) →
        demo_data stream names nlevels min_rows [] = .ok result →
        numericPart result = (pySorted nums.dedup).enum.map (fun q =>
          (q.2, (List.range (numRows nlevels min_rows cats)).map
            (fun t => stream (q.1 * numRows nlevels min_rows cats + t)))) ∧
        ((numericPart result).map Prod.fst).Sorted (fun a b => strLe a b = true)) := by
  constructor
  · intro α stream names nlevels min_rows r₁ r₂ h₁ h₂
    rw [h₁] at h₂
    exact Except.ok.inj h₂
  · intro α stream names nlevels min_rows cats nums result hcl hok
    have hnp := demo_data_numericPart stream names nlevels min_rows hcl hok
    refine ⟨hnp, ?_⟩
    rw [hnp, List.map_map]
    have hfun : (Prod.fst ∘ fun q : Nat × String =>
        (q.2, (List.range (numRows nlevels min_rows cats)).map
          (fun t => stream (q.1 * numRows nlevels min_rows cats + t)))) =
        (Prod.snd : Nat × String → String) := rfl
    rw [hfun, List.enum_map_snd]
    exact pySorted_sorted _

/-- Witness for C6 at `demo_data("x")`: the one numeric column is the first
5 samples of the stream. -/
theorem demo_data_determinism_witness :
    numericPart [("x", Column.num [(0 : Int), 1, 2, 3, 4])] =
      (pySorted (["x"].dedup)).enum.map (fun q =>
        (q.2, (List.range (numRows 2 5 [])).map
          (fun t => (fun n => (n : Int)) (q.1 * numRows 2 5 [] + t)))) :=
  (demo_data_determinism.2 Int (fun n => (n : Int)) ["x"] 2 5 [] ["x"]
    [("x", Column.num [(0 : Int), 1, 2, 3, 4])] rfl rfl).1

/-! ### Claim C7 (corrected) -/

theorem classifyNames_empty_error :
    ∀ (names₁ names₂ : List String),
      (∀ nm ∈ names₁, ∃ b, classifyName nm = .ok b) →
      classifyNames (names₁ ++ "" :: names₂) = .error .emptyNameIndexError := by
  intro names₁
  induction names₁ with
  | nil => intro names₂ _; rfl
  | cons nm t ih =>
    intro names₂ h
    obtain ⟨b, hb⟩ := h nm (by simp)
    have ht := ih names₂ (fun x hx => h x (by simp [hx]))
    show classifyNames (nm :: (t ++ "" :: names₂)) = _
    cases b <;> simp [classifyNames, hb, ht]

/-- C7 counterexample: a call with an empty-string name fails with the
index error of `name[0]`, not with the domain-specific InvalidNameError
(`PatsyError`) the claim asserts. -/
theorem demo_data_empty_name_cex :
    demo_data (fun n => (n : Int)) [""] 2 5 [] = .error .emptyNameIndexError ∧
    demo_data (fun n => (n : Int)) [""] 2 5 [] ≠ .error (.invalidName "") := by
  refine ⟨rfl, fun h => ?_⟩
  exact absurd (Except.error.inj h) (by decide)

/-- C7 amended: a call whose names include the empty string (all names
before it classifying successfully, and no unexpected options) fails — but
with the IndexError from evaluating `name[0]` on the empty name, not with
InvalidNameError; no data is returned. -/
theorem demo_data_empty_name (α : Type) (stream : Nat → α)
    (names₁ names₂ : List String) (nlevels min_rows : Nat)
    (h : ∀ nm ∈ names₁, ∃ b, classifyName nm = .ok b) :
    demo_data stream (names₁ ++ "" :: names₂) nlevels min_rows [] =
      .error .emptyNameIndexError := by
  unfold demo_data
  rw [classifyNames_empty_error names₁ names₂ h]
  rfl

/-- Witness for the amended C7 at `demo_data("a", "")`. -/
theorem demo_data_empty_name_witness :
    demo_data (fun n => (n : Int)) (["a"] ++ "" :: []) 2 5 [] =
      .error .emptyNameIndexError :=
  demo_data_empty_name Int (fun n => (n : Int)) ["a"] [] 2 5
    (by
      intro nm hnm
      rw [List.mem_singleton] at hnm
      subst hnm
      exact ⟨true, rfl⟩)

/-! ### Claim C8 (corrected) -/

/-- C8 counterexample: with both a bad name and an unrecognized keyword
option, the usage error (`TypeError` / unexpected-option) is raised, not
the classification error the claim asserts. -/
theorem demo_data_option_check_cex :
    demo_data (fun n => (n : Int)) ["__123"] 2 5 ["asdfasdf"] =
      .error (.unexpectedOption ["asdfasdf"]) ∧
    demo_data (fun n => (n : Int)) ["__123"] 2 5 ["asdfasdf"] ≠
      .error (.invalidName "__123") := by
  refine ⟨rfl, fun h => ?_⟩
  exact absurd (Except.error.inj h) (by decide)

/-- C8 amended: `demo_data` performs the unexpected-option check *before*
name classification: whenever an unrecognized keyword option is supplied,
the usage error is the one signaled, regardless of the names; in every
error case no data is returned. -/
theorem demo_data_option_check_first (α : Type) (stream : Nat → α)
    (names : List String) (nlevels min_rows : Nat) (extra : List String)
    (hx : extra ≠ []) :
    demo_data stream names nlevels min_rows extra =
      .error (.unexpectedOption extra) := by
  unfold demo_data
  rw [if_neg (by simpa using hx)]

/-- Witness for the amended C8. -/
theorem demo_data_option_check_first_witness :
    demo_data (fun n => (n : Int)) ["a"] 2 5 ["foo"] =
      .error (.unexpectedOption ["foo"]) :=
  demo_data_option_check_first Int (fun n => (n : Int)) ["a"] 2 5 ["foo"]
    (List.cons_ne_nil _ _)

/-! ### Claim C10 -/

/-- C10: the values of a numeric column depend only on its rank among the
sorted numeric names and on `num_rows`, never on the name itself: the
column of rank `i` is the stream slice `i*num_rows..(i+1)*num_rows-1`; in
particular `demo_data("x")` and `demo_data("y")` carry identical numeric
values under their respective names. -/
theorem demo_data_rank_determines_values :
    (∀ (α : Type) (stream : Nat → α) (names₁ names₂ : List String)
        (nl₁ nl₂ mr₁ mr₂ : Nat) (cats₁ nums₁ cats₂ nums₂ : List String)
        (r₁ r₂ : List (String × Column α)) (i : Nat),
        classifyNames names₁ = .ok (cats₁, nums₁) →
        classifyNames names₂ = .ok (cats₂, nums₂) →
        demo_data stream names₁ nl₁ mr₁ [] = .ok r₁ →
        demo_data stream names₂ nl₂ mr₂ [] = .ok r₂ →
        numRows nl₁ mr₁ cats₁ = numRows nl₂ mr₂ cats₂ →
        i < (pySorted nums₁.dedup).length →
        i < (pySorted nums₂.dedup).length →
        ((numericPart r₁).map Prod.snd).getD i [] =
          ((numericPart r₂).map Prod.snd).getD i []) ∧
    (∀ (stream : Nat → Int) (r₁ r₂ : List (String × Column Int)),
        demo_data stream ["x"] 2 5 [] = .ok r₁ →
        demo_data stream ["y"] 2 5 [] = .ok r₂ →
        (numericPart r₁).map Prod.snd = (numericPart r₂).map Prod.snd) := by
  have key : ∀ (α : Type) (stream : Nat → α) (names : List String)
      (nl mr : Nat) (cats nums : List String) (r : List (String × Column α)),
      classifyNames names = .ok (cats, nums) →
      demo_data stream names nl mr [] = .ok r →
      (numericPart r).map Prod.snd =
        (List.range (pySorted nums.dedup).length).map (fun i =>
          (List.range (numRows nl mr cats)).map
            (fun t => stream (i * numRows nl mr cats + t))) := by
    intro α stream names nl mr cats nums r hcl hok
    rw [demo_data_numericPart stream names nl mr hcl hok, List.map_map]
    have hfun : (Prod.snd ∘ fun q : Nat × String =>
        (q.2, (List.range (numRows nl mr cats)).map
          (fun t => stream (q.1 * numRows nl mr cats + t)))) =
        ((fun i : Nat => (List.range (numRows nl mr cats)).map
          (fun t => stream (i * numRows nl mr cats + t))) ∘ Prod.fst) := rfl
    rw [hfun, ← List.map_map, List.enum_map_fst]
  constructor
  · intro α stream names₁ names₂ nl₁ nl₂ mr₁ mr₂ cats₁ nums₁ cats₂ nums₂
      r₁ r₂ i hcl₁ hcl₂ hok₁ hok₂ hnr hi₁ hi₂
    rw [key α stream names₁ nl₁ mr₁ cats₁ nums₁ r₁ hcl₁ hok₁,
      key α stream names₂ nl₂ mr₂ cats₂ nums₂ r₂ hcl₂ hok₂,
      getD_map_of_lt _ _ 0 _ (by simpa using hi₁),
      getD_map_of_lt _ _ 0 _ (by simpa using hi₂)]
    have h₁ : (List.range (pySorted nums₁.dedup).length).getD i 0 = i := by
      rw [List.getD_eq_getElem _ _ (by simpa using hi₁)]
      simp
    have h₂ : (List.range (pySorted nums₂.dedup).length).getD i 0 = i := by
      rw [List.getD_eq_getElem _ _ (by simpa using hi₂)]
      simp
    rw [h₁, h₂, hnr]
  · intro stream r₁ r₂ h₁ h₂
    rw [key Int stream ["x"] 2 5 [] ["x"] r₁ rfl h₁,
      key Int stream ["y"] 2 5 [] ["y"] r₂ rfl h₂]
    rfl

/-- Witness for C10: the numeric values of `demo_data("x")` equal those of
`demo_data("y")`. -/
theorem demo_data_rank_determines_values_witness :
    (numericPart [("x", Column.num [(0 : Int), 1, 2, 3, 4])]).map Prod.snd =
      (numericPart [("y", Column.num [(0 : Int), 1, 2, 3, 4])]).map Prod.snd :=
  demo_data_rank_determines_values.2 (fun n => (n : Int)) _ _ rfl rfl

end Charlton
